import Mathlib

/-!
Verification of the event system of the rasta-protocol repository
(`src/rasta/c/event_system.c`).

The C file implements a single-threaded reactor: periodic timed events are
scheduled by `calc_next_timed_event`, file-descriptor readiness is multiplexed
through `select` inside `event_system_sleep`, and `event_system_start` runs the
loop.  Event registries are intrusive doubly-linked lists manipulated by
`add_timed_event` / `remove_timed_event` / `add_fd_event` / `remove_fd_event`.

Every definition below is a shallow embedding of the corresponding C function,
keeping its name where possible.  Machine integers (`uint64_t`) are modelled as
`Nat` with explicit `% 2 ^ 64` where the C arithmetic can wrap.  Callbacks are
modelled as pure values: each event carries the constant continue/stop result
its callback returns (`cbStop`), which is all the dispatch-order, counting and
termination properties proved here depend on.  The `select` syscall is
modelled by an oracle (`SelectOutcome`) that either fails or tells which
descriptors are genuinely ready for each condition; a timeout is the outcome
in which no watched descriptor is ready.
-/

set_option autoImplicit false

namespace Rasta

/-- The modulus of `uint64_t` arithmetic. -/
def U64 : Nat := 2 ^ 64

/-- `UINT64_MAX`, the sentinel used by `calc_next_timed_event` for "no deadline". -/
def U64MAX : Nat := U64 - 1

/-- A `timed_event` record as far as the scheduler reads it: `interval` and
`last_call` are `uint64_t` nanosecond values, `enabled` the enable flag, and
`cbStop` the (constant) truth value of "the callback returns non-zero". -/
structure TimedEvent where
  interval : Nat
  last_call : Nat
  enabled : Bool
  cbStop : Bool
deriving DecidableEq

/-- The due time `continue_at = current->last_call + current->interval` of
`calc_next_timed_event` (line 143), a `uint64_t` sum, hence reduced mod `2^64`. -/
def dueAt (e : TimedEvent) : Nat := (e.last_call + e.interval) % U64

/-- Scanning loop of `calc_next_timed_event` (lines 141-157).  `i` is the
index of the current node in the registry, `best` the running `time_to_wait`
(initially `UINT64_MAX`), and `cand` the value last written through the
`next_timed_event` out-parameter (`none` = never written). -/
def calcGo : List TimedEvent → Nat → Nat → Nat → Option Nat → Nat × Option Nat
  | [], _, _, best, cand => (best, cand)
  | e :: rest, cur_time, i, best, cand =>
    if e.enabled then
      if dueAt e ≤ cur_time then (0, some i)
      else if dueAt e - cur_time < best then
        calcGo rest cur_time (i + 1) (dueAt e - cur_time) (some i)
      else calcGo rest cur_time (i + 1) best cand
    else calcGo rest cur_time (i + 1) best cand

/-- `calc_next_timed_event` (lines 137-159): returns the time to wait and the
final value of the `next_timed_event` out-parameter, as an index into the
registry (`none` models the out-parameter never being written). -/
def calc_next_timed_event (l : List TimedEvent) (cur_time : Nat) : Nat × Option Nat :=
  calcGo l cur_time 0 U64MAX none

/-- Specification-side helper: the index of the first enabled event (in
registry order) whose due time has passed, starting the numbering at `i`. -/
def firstDue : List TimedEvent → Nat → Nat → Option Nat
  | [], _, _ => none
  | e :: rest, now, i =>
    if e.enabled && decide (dueAt e ≤ now) then some i else firstDue rest now (i + 1)

/-- Specification-side helper: the minimum of `dueAt e - now` over the enabled
events, `UINT64_MAX` when no event is enabled. -/
def minWait : List TimedEvent → Nat → Nat
  | [], _ => U64MAX
  | e :: rest, now =>
    if e.enabled then min (dueAt e - now) (minWait rest now) else minWait rest now

theorem minWait_le (l : List TimedEvent) (now : Nat) : minWait l now ≤ U64MAX := by
  induction l with
  | nil => simp [minWait]
  | cons e rest ih =>
    simp only [minWait]
    by_cases he : e.enabled
    · rw [if_pos he]; omega
    · rw [if_neg he]; exact ih

theorem calcGo_of_firstDue (l : List TimedEvent) (now : Nat) :
    ∀ i best cand j, firstDue l now i = some j →
      calcGo l now i best cand = (0, some j) := by
  induction l with
  | nil => intro i best cand j h; simp [firstDue] at h
  | cons e rest ih =>
    intro i best cand j h
    simp only [firstDue] at h
    by_cases he : e.enabled
    · by_cases hd : dueAt e ≤ now
      · simp [he, hd] at h
        simp [calcGo, he, hd, h]
      · simp [he, hd] at h
        simp only [calcGo, if_pos he, if_neg hd]
        by_cases hlt : dueAt e - now < best
        · simp only [if_pos hlt]; exact ih _ _ _ _ h
        · simp only [if_neg hlt]; exact ih _ _ _ _ h
    · simp [he] at h
      simp only [calcGo, if_neg he]
      exact ih _ _ _ _ h

theorem firstDue_none_iff (l : List TimedEvent) (now : Nat) : ∀ i,
    (firstDue l now i = none ↔ ∀ e ∈ l, e.enabled = true → now < dueAt e) := by
  induction l with
  | nil => intro i; simp [firstDue]
  | cons e rest ih =>
    intro i
    simp only [firstDue, List.mem_cons]
    by_cases hc : e.enabled && decide (dueAt e ≤ now)
    · rw [if_pos hc]
      simp only [Bool.and_eq_true, decide_eq_true_eq] at hc
      constructor
      · intro h; exact absurd h (by simp)
      · intro h; exact absurd (h e (Or.inl rfl) hc.1) (by omega)
    · rw [if_neg hc]
      rw [ih (i + 1)]
      simp only [Bool.and_eq_true, decide_eq_true_eq, not_and, not_le] at hc
      constructor
      · rintro h x (rfl | hx) hxe
        · exact hc hxe
        · exact h x hx hxe
      · intro h x hx hxe; exact h x (Or.inr hx) hxe

theorem calcGo_fst_noDue (l : List TimedEvent) (now : Nat)
    (h : ∀ e ∈ l, e.enabled = true → now < dueAt e) :
    ∀ i best cand, best ≤ U64MAX →
      (calcGo l now i best cand).1 = min (minWait l now) best := by
  induction l with
  | nil => intro i best cand hb; simp [calcGo, minWait]; omega
  | cons e rest ih =>
    intro i best cand hb
    have hrest : ∀ x ∈ rest, x.enabled = true → now < dueAt x := by
      intro x hx hxe; exact h x (List.mem_cons_of_mem _ hx) hxe
    by_cases he : e.enabled
    · have hd : now < dueAt e := h e (List.mem_cons_self _ _) he
      simp only [calcGo, if_pos he, if_neg (by omega : ¬ dueAt e ≤ now), minWait, if_pos he]
      by_cases hlt : dueAt e - now < best
      · rw [if_pos hlt, ih hrest _ _ _ (by omega)]
        omega
      · rw [if_neg hlt, ih hrest _ _ _ hb]
        omega
    · simp only [calcGo, if_neg he, minWait, if_neg he]
      exact ih hrest _ _ _ hb

theorem calcGo_snd_noDue (l : List TimedEvent) (now : Nat)
    (h : ∀ e ∈ l, e.enabled = true → now < dueAt e) :
    ∀ i best cand, best ≤ U64MAX →
      calcGo l now i best cand = (best, cand) ∨
      (∃ k e', l.get? k = some e' ∧ (calcGo l now i best cand).2 = some (i + k) ∧
        e'.enabled = true ∧ dueAt e' - now = (calcGo l now i best cand).1 ∧
        (calcGo l now i best cand).1 < best) := by
  induction l with
  | nil => intro i best cand _; exact Or.inl rfl
  | cons e rest ih =>
    intro i best cand hb
    have hrest : ∀ x ∈ rest, x.enabled = true → now < dueAt x := by
      intro x hx hxe; exact h x (List.mem_cons_of_mem _ hx) hxe
    by_cases he : e.enabled
    · have hd : now < dueAt e := h e (List.mem_cons_self _ _) he
      simp only [calcGo, if_pos he, if_neg (by omega : ¬ dueAt e ≤ now)]
      by_cases hlt : dueAt e - now < best
      · rw [if_pos hlt]
        rcases ih hrest (i + 1) (dueAt e - now) (some i) (by omega) with heq | ⟨k, e', hk, h2, h3, h4, h5⟩
        · refine Or.inr ⟨0, e, rfl, ?_, he, ?_, ?_⟩
          · rw [heq]; simp
          · rw [heq]
          · rw [heq]; exact hlt
        · refine Or.inr ⟨k + 1, e', by simpa using hk, ?_, h3, h4, by omega⟩
          rw [h2]; congr 1; omega
      · rw [if_neg hlt]
        rcases ih hrest (i + 1) best cand hb with heq | ⟨k, e', hk, h2, h3, h4, h5⟩
        · exact Or.inl heq
        · refine Or.inr ⟨k + 1, e', by simpa using hk, ?_, h3, h4, h5⟩
          rw [h2]; congr 1; omega
    · simp only [calcGo, if_neg he]
      rcases ih hrest (i + 1) best cand hb with heq | ⟨k, e', hk, h2, h3, h4, h5⟩
      · exact Or.inl heq
      · refine Or.inr ⟨k + 1, e', by simpa using hk, ?_, h3, h4, h5⟩
        rw [h2]; congr 1; omega

theorem calcGo_fst_zero_of_due (l : List TimedEvent) (now : Nat) (e : TimedEvent)
    (hmem : e ∈ l) (hen : e.enabled = true) (hdue : dueAt e ≤ now) :
    ∀ i best cand, (calcGo l now i best cand).1 = 0 := by
  induction l with
  | nil => cases hmem
  | cons a rest ih =>
    intro i best cand
    rcases List.mem_cons.mp hmem with rfl | hmem'
    · simp [calcGo, hen, hdue]
    · by_cases ha : a.enabled
      · by_cases hd : dueAt a ≤ now
        · simp [calcGo, ha, hd]
        · simp only [calcGo, if_pos ha, if_neg hd]
          by_cases hlt : dueAt a - now < best
          · rw [if_pos hlt]; exact ih hmem' _ _ _
          · rw [if_neg hlt]; exact ih hmem' _ _ _
      · simp only [calcGo, if_neg ha]; exact ih hmem' _ _ _

/-- C7: characterization of `calc_next_timed_event`, amended.  Disabled events
are skipped (the specification functions `firstDue` and `minWait` only consult
enabled events).  If some enabled event is due, the scan returns `0` together
with the first due event in registry order.  Otherwise the returned wait is the
minimum of `dueAt e - now` over the enabled events (`UINT64_MAX` when no event
is enabled); when that minimum is below `UINT64_MAX` the candidate is an
enabled event achieving it, but when the minimum equals `UINT64_MAX` the
out-parameter is never written (`none`) even if an enabled event exists, so the
result is indistinguishable from the no-enabled-events sentinel. -/
theorem calc_next_timed_event_characterization (l : List TimedEvent) (now : Nat) :
    (∀ j, firstDue l now 0 = some j → calc_next_timed_event l now = (0, some j)) ∧
    ((∀ e ∈ l, e.enabled = true → now < dueAt e) →
      (calc_next_timed_event l now).1 = minWait l now ∧
      (minWait l now < U64MAX →
        ∃ k e', l.get? k = some e' ∧ (calc_next_timed_event l now).2 = some k ∧
          e'.enabled = true ∧ dueAt e' - now = minWait l now) ∧
      (minWait l now = U64MAX → (calc_next_timed_event l now).2 = none)) := by
  constructor
  · intro j h
    exact calcGo_of_firstDue l now 0 U64MAX none j h
  · intro h
    have hfst : (calc_next_timed_event l now).1 = minWait l now := by
      have := calcGo_fst_noDue l now h 0 U64MAX none le_rfl
      simpa [calc_next_timed_event, Nat.min_eq_left (minWait_le l now)] using this
    refine ⟨hfst, ?_, ?_⟩
    · intro hlt
      rcases calcGo_snd_noDue l now h 0 U64MAX none le_rfl with heq | ⟨k, e', hk, h2, h3, h4, h5⟩
      · exfalso
        have : (calc_next_timed_event l now).1 = U64MAX := by
          simp [calc_next_timed_event, heq]
        omega
      · exact ⟨k, e', hk, by simpa [calc_next_timed_event] using h2, h3, by
          rw [← hfst]; exact h4⟩
    · intro hmax
      rcases calcGo_snd_noDue l now h 0 U64MAX none le_rfl with heq | ⟨k, e', hk, h2, h3, h4, h5⟩
      · simp [calc_next_timed_event, heq]
      · exfalso
        have : (calc_next_timed_event l now).1 < U64MAX := h5
        omega

/-- C7 counterexample: with a single enabled event whose due time lies exactly
`UINT64_MAX` nanoseconds in the future, `calc_next_timed_event` returns the
minimum wait `UINT64_MAX` but never writes the out-parameter (no candidate),
refuting the claim that the minimum is always returned together with its
event. -/
theorem calc_far_due_loses_candidate :
    calc_next_timed_event [⟨U64MAX, 0, true, false⟩] 0 = (U64MAX, none) ∧
    (⟨U64MAX, 0, true, false⟩ : TimedEvent).enabled = true ∧
    dueAt ⟨U64MAX, 0, true, false⟩ - 0 = U64MAX := by
  refine ⟨?_, rfl, ?_⟩
  · rfl
  · rfl

/-- C7 witness: a disabled event followed by an enabled, already-due event;
the characterization yields wait `0` and candidate index `1`. -/
theorem calc_characterization_witness :
    firstDue [⟨5, 0, false, false⟩, ⟨5, 0, true, false⟩] 7 0 = some 1 ∧
    calc_next_timed_event [⟨5, 0, false, false⟩, ⟨5, 0, true, false⟩] 7 = (0, some 1) :=
  ⟨by decide,
   (calc_next_timed_event_characterization [⟨5, 0, false, false⟩, ⟨5, 0, true, false⟩] 7).1
     1 (by decide)⟩

/-- C10: the due-time computation wraps modulo `2^64`, amended with the
hypothesis `last_call ≤ now` (which every reachable `last_call` of a running
loop satisfies, being a past clock value).  Under it, an enabled event whose
`last_call + interval` overflows has wrapped due time `≤ now`, and the
scheduler returns a zero wait for any registry containing such an event. -/
theorem overflow_due_gives_zero_wait (l : List TimedEvent) (now : Nat) (e : TimedEvent)
    (hmem : e ∈ l) (hen : e.enabled = true) (hlc : e.last_call ≤ now) (hnow : now < U64)
    (hiv : e.interval < U64) (hov : U64 ≤ e.last_call + e.interval) :
    dueAt e ≤ now ∧ (calc_next_timed_event l now).1 = 0 := by
  have hU : 0 < U64 := by norm_num [U64]
  have hdue : dueAt e = e.last_call + e.interval - U64 := by
    unfold dueAt
    rw [Nat.mod_eq_sub_mod hov, Nat.mod_eq_of_lt (by omega)]
  have hle : dueAt e ≤ now := by omega
  exact ⟨hle, calcGo_fst_zero_of_due l now e hmem hen hle 0 U64MAX none⟩

/-- C10 counterexample: for an enabled event with `last_call = interval =
UINT64_MAX` and `now = 0`, the sum overflows `2^64` but the wrapped due time
`2^64 - 2` is far greater than `now`, so the scheduler returns a huge non-zero
wait instead of treating the event as due; the claim fails without the
`last_call ≤ now` hypothesis. -/
theorem overflow_not_always_due :
    U64 ≤ (⟨U64MAX, U64MAX, true, false⟩ : TimedEvent).last_call +
      (⟨U64MAX, U64MAX, true, false⟩ : TimedEvent).interval ∧
    calc_next_timed_event [⟨U64MAX, U64MAX, true, false⟩] 0 = (U64MAX - 1, some 0) ∧
    U64MAX - 1 ≠ 0 := by
  refine ⟨by norm_num [U64, U64MAX], ?_, by norm_num [U64, U64MAX]⟩
  rfl

/-- C10 witness: `last_call = 1`, `interval = UINT64_MAX`, `now = 1`: the sum
is exactly `2^64`, the wrapped due time is `0 ≤ now`, and the scheduler
returns a zero wait. -/
theorem overflow_due_witness :
    dueAt ⟨U64MAX, 1, true, false⟩ ≤ 1 ∧
    (calc_next_timed_event [⟨U64MAX, 1, true, false⟩] 1).1 = 0 :=
  overflow_due_gives_zero_wait [⟨U64MAX, 1, true, false⟩] 1 ⟨U64MAX, 1, true, false⟩
    (by decide) rfl (by norm_num) (by norm_num [U64])
    (by norm_num [U64, U64MAX]) (by norm_num [U64, U64MAX])

/-- `struct timeval` (POSIX): `sec` counts seconds and `usec` counts
MICROseconds; `select` requires `0 ≤ usec < 10^6` and interprets the pair as
`sec` seconds plus `usec` microseconds. -/
structure Timeval where
  sec : Nat
  usec : Nat
deriving DecidableEq

/-- `struct timespec` (POSIX): `sec` seconds plus `nsec` NANOseconds. -/
structure Timespec where
  sec : Nat
  nsec : Nat
deriving DecidableEq

/-- Nanoseconds per second. -/
def NS_PER_S : Nat := 1000000000

/-- Microseconds per second: the exclusive upper bound `select` accepts for
`timeval.usec`. -/
def USEC_PER_S : Nat := 1000000

/-- `evtime_to_timeval` (lines 15-20): builds a `struct timeval` from a
nanosecond count as `{ t / 10^9, t % 10^9 }` — the NANOsecond remainder is
stored in the MICROsecond field. -/
def evtime_to_timeval (t : Nat) : Timeval :=
  ⟨t / NS_PER_S, t % NS_PER_S⟩

/-- `timeval_to_evtime` (lines 30-32): despite its name it takes a
`struct timespec` and computes `tv_sec * 10^9 + tv_nsec`. -/
def timeval_to_evtime (t : Timespec) : Nat :=
  t.sec * NS_PER_S + t.nsec

/-- The duration in nanoseconds that a `struct timeval` denotes under the
interpretation the `select` syscall gives it (`usec` = microseconds). -/
def timevalNs (tv : Timeval) : Nat := tv.sec * NS_PER_S + tv.usec * 1000

/-- Validity of a `timeval` as a `select` timeout: the sub-second field must
be a microsecond count below one second. -/
def timevalValid (tv : Timeval) : Bool := tv.usec < USEC_PER_S

/-- Readiness conditions of an fd event (the three `fd_set`s of `select`). -/
inductive FdKind where
  | readable
  | writable
  | exceptional
deriving DecidableEq

/-- An `fd_event` record.  `id` stands for the opaque `callback`/`carry_data`
pair (it only serves to distinguish events), `fd` is the watched descriptor,
and `watchesR`/`watchesW`/`watchesE` model the tests `options & EV_READABLE`,
`options & EV_WRITABLE`, `options & EV_EXCEPTIONAL` (the `EV_*` constants live
in `event_system.h`, which is not part of the sources; the spec describes
`interest_mask` as the bitwise OR of the three conditions, which these three
flags represent).  `cbStop` is the constant truth value of "the callback
returns non-zero". -/
structure FdEvent where
  id : Nat
  fd : Nat
  watchesR : Bool
  watchesW : Bool
  watchesE : Bool
  enabled : Bool
  cbStop : Bool
deriving DecidableEq

/-- The three descriptor sets built by `prepare_fd_sets`, represented as
duplicate-free lists of descriptors (a list models the bit array of an
`fd_set`; only membership and the number of set bits matter). -/
structure FdSets where
  rs : List Nat
  ws : List Nat
  es : List Nat
deriving DecidableEq

/-- `FD_SET`: set a bit; a no-op when the bit is already set. -/
def fdInsert (fd : Nat) (s : List Nat) : List Nat := if fd ∈ s then s else s ++ [fd]

/-- `FD_SETSIZE` of the target platform (the POSIX/glibc value). -/
def FD_SETSIZE : Nat := 1024

/-- `get_max_nfds` (lines 47-55): one plus the highest descriptor among ALL
registered fd events — the loop does not look at `enabled` or at the interest
flags. -/
def get_max_nfds (fd_events : List FdEvent) : Nat :=
  (fd_events.foldl (fun nfds cur => if nfds < cur.fd then cur.fd else nfds) 0) + 1

/-- Body of the `prepare_fd_sets` loop (lines 64-73): for an enabled event,
set its descriptor in each set whose condition the event watches. -/
def prepStep (s : FdSets) (e : FdEvent) : FdSets :=
  if e.enabled then
    let s1 := if e.watchesR then { s with rs := fdInsert e.fd s.rs } else s
    let s2 := if e.watchesW then { s1 with ws := fdInsert e.fd s1.ws } else s1
    if e.watchesE then { s2 with es := fdInsert e.fd s2.es } else s2
  else s

/-- `prepare_fd_sets` (lines 57-74): zero the three sets, then iterate the
registry in order. -/
def prepare_fd_sets (fd_events : List FdEvent) : FdSets :=
  fd_events.foldl prepStep ⟨[], [], []⟩

/-- `handle_fd_events` (lines 76-91).  `S` holds the result sets left by
`select`.  For each event, in registry order, the three conditions are checked
in the order readable / writable / exceptional; each check tests `enabled` and
`FD_ISSET(fd, set)` — NOT the event's own interest flags — and a non-zero
callback return aborts the walk immediately (`return -1`).  The result is the
list of performed invocations (event, matched set) in order, together with the
abort flag computed by the function (the C returns `-1` exactly when the flag
is true; its return value on normal completion is never used by the caller). -/
def handle_fd_events : List FdEvent → FdSets → List (FdEvent × FdKind) × Bool
  | [], _ => ([], false)
  | ev :: rest, S =>
    let kR : Bool := ev.enabled && decide (ev.fd ∈ S.rs)
    let kW : Bool := ev.enabled && decide (ev.fd ∈ S.ws)
    let kE : Bool := ev.enabled && decide (ev.fd ∈ S.es)
    if kR && ev.cbStop then ([(ev, FdKind.readable)], true)
    else if kW && ev.cbStop then
      ((if kR then [(ev, FdKind.readable)] else []) ++ [(ev, FdKind.writable)], true)
    else if kE && ev.cbStop then
      ((if kR then [(ev, FdKind.readable)] else []) ++
       (if kW then [(ev, FdKind.writable)] else []) ++ [(ev, FdKind.exceptional)], true)
    else
      ((if kR then [(ev, FdKind.readable)] else []) ++
       (if kW then [(ev, FdKind.writable)] else []) ++
       (if kE then [(ev, FdKind.exceptional)] else []) ++
       (handle_fd_events rest S).1,
       (handle_fd_events rest S).2)

/-- Specification-side dispatch list: one invocation per enabled event and per
result set containing its descriptor, in registry order (what
`handle_fd_events` performs when no callback requests a stop). -/
def dispatchSpec : List FdEvent → FdSets → List (FdEvent × FdKind)
  | [], _ => []
  | ev :: rest, S =>
    (if ev.enabled && decide (ev.fd ∈ S.rs) then [(ev, FdKind.readable)] else []) ++
    (if ev.enabled && decide (ev.fd ∈ S.ws) then [(ev, FdKind.writable)] else []) ++
    (if ev.enabled && decide (ev.fd ∈ S.es) then [(ev, FdKind.exceptional)] else []) ++
    dispatchSpec rest S

/-- Outcome of one `select` call, as decided by the kernel: either a failure
(`select` returns `-1`), or the ground truth of which descriptors are ready
for each condition; a pure timeout is the `ready` outcome in which no watched
descriptor is ready. -/
inductive SelectOutcome where
  | fail
  | ready (r w e : List Nat)
deriving DecidableEq

/-- Observable behaviour of one `event_system_sleep` call: the `int` the
function returns, the fd callback invocations performed, and the stop flag
computed by `handle_fd_events` (which the C discards at line 116). -/
structure SleepOut where
  ret : Int
  calls : List (FdEvent × FdKind)
  handleStop : Bool
deriving DecidableEq

/-- `event_system_sleep` (lines 100-118): fail before waiting when
`get_max_nfds` reaches `FD_SETSIZE`; otherwise wait.  On `select` failure
return `-1` without dispatching.  On success the result sets are the watched
sets intersected with the genuinely ready descriptors, `select`'s return value
is the number of set bits across the three result sets, `handle_fd_events`
runs — and its verdict is dropped: the function returns `select`'s count. -/
def event_system_sleep (time_to_wait : Nat) (fd_events : List FdEvent)
    (oc : SelectOutcome) : SleepOut :=
  let _tv := evtime_to_timeval time_to_wait
  let nfds := get_max_nfds fd_events
  if FD_SETSIZE ≤ nfds then ⟨-1, [], false⟩
  else
    match oc with
    | .fail => ⟨-1, [], false⟩
    | .ready r w e =>
      let sets := prepare_fd_sets fd_events
      let res : FdSets := ⟨sets.rs.filter (fun x => decide (x ∈ r)),
                           sets.ws.filter (fun x => decide (x ∈ w)),
                           sets.es.filter (fun x => decide (x ∈ e))⟩
      let result : Int := ((res.rs.length + res.ws.length + res.es.length : Nat) : Int)
      ⟨result, (handle_fd_events fd_events res).1, (handle_fd_events fd_events res).2⟩

/-- The result set of `S` for a given readiness kind. -/
def FdSets.sel (S : FdSets) : FdKind → List Nat
  | .readable => S.rs
  | .writable => S.ws
  | .exceptional => S.es

theorem handle_fd_events_of_no_stop (L : List FdEvent) (S : FdSets)
    (h : ∀ x ∈ L, x.cbStop = false) :
    handle_fd_events L S = (dispatchSpec L S, false) := by
  induction L with
  | nil => rfl
  | cons ev rest ih =>
    have hev : ev.cbStop = false := h ev (List.mem_cons_self _ _)
    have hrest : ∀ x ∈ rest, x.cbStop = false :=
      fun x hx => h x (List.mem_cons_of_mem _ hx)
    simp only [handle_fd_events, dispatchSpec, hev, Bool.and_false, Bool.false_eq_true,
      if_false, ih hrest]

theorem dispatchSpec_fst_mem (L : List FdEvent) (S : FdSets) :
    ∀ p ∈ dispatchSpec L S, p.1 ∈ L := by
  induction L with
  | nil => simp [dispatchSpec]
  | cons a rest ih =>
    intro p hp
    simp only [dispatchSpec, List.mem_append] at hp
    rcases hp with ((h1 | h2) | h3) | h4
    · rcases List.mem_ite_nil_right.mp h1 with ⟨-, hm⟩
      rw [List.mem_singleton.mp hm]
      exact List.mem_cons_self _ _
    · rcases List.mem_ite_nil_right.mp h2 with ⟨-, hm⟩
      rw [List.mem_singleton.mp hm]
      exact List.mem_cons_self _ _
    · rcases List.mem_ite_nil_right.mp h3 with ⟨-, hm⟩
      rw [List.mem_singleton.mp hm]
      exact List.mem_cons_self _ _
    · exact List.mem_cons_of_mem _ (ih p h4)

theorem count_ite_single_ne {α : Type _} [BEq α] [LawfulBEq α] {x y : α} (h : x ≠ y)
    (c : Prop) [Decidable c] : List.count x (if c then [y] else []) = 0 := by
  split <;> simp [List.count_cons, List.count_nil, h]

theorem dispatchSpec_count (L : List FdEvent) (S : FdSets) (hnd : L.Nodup)
    (ev : FdEvent) (k : FdKind) :
    (dispatchSpec L S).count (ev, k) =
      if ev ∈ L ∧ ev.enabled = true ∧ ev.fd ∈ S.sel k then 1 else 0 := by
  induction L with
  | nil => simp [dispatchSpec]
  | cons a rest ih =>
    have hnd' : rest.Nodup := (List.nodup_cons.mp hnd).2
    have hanotin : a ∉ rest := (List.nodup_cons.mp hnd).1
    have hrec := ih hnd'
    rcases eq_or_ne ev a with rfl | hne
    · have h0 : List.count (ev, k) (dispatchSpec rest S) = 0 :=
        List.count_eq_zero.mpr (fun hmem => hanotin (dispatchSpec_fst_mem rest S _ hmem))
      rw [dispatchSpec]
      by_cases h1 : ev.enabled <;> by_cases h2 : ev.fd ∈ S.rs <;>
        by_cases h3 : ev.fd ∈ S.ws <;> by_cases h4 : ev.fd ∈ S.es <;>
        cases k <;>
        simp [List.count_append, h0, h1, h2, h3, h4, List.count_cons, FdSets.sel,
          List.mem_cons]
    · have hne' : ∀ j : FdKind, (ev, k) ≠ (a, j) := by
        intro j hj
        exact hne (congrArg Prod.fst hj)
      rw [dispatchSpec]
      simp only [List.count_append, hrec]
      rw [count_ite_single_ne (hne' FdKind.readable),
        count_ite_single_ne (hne' FdKind.writable),
        count_ite_single_ne (hne' FdKind.exceptional)]
      simp [List.mem_cons, hne]

/-- C3 counterexample: event `A` (id 1) watches descriptor 5 only for
readability; event `B` (id 2) watches the same descriptor 5 only for
writability.  When descriptor 5 becomes writable, `handle_fd_events` invokes
`A`'s callback for the writable condition — which `A` does not watch —
because the dispatch tests `FD_ISSET` on the shared result sets without
consulting the event's own interest flags. -/
theorem dispatch_ignores_own_mask :
    (event_system_sleep 5
        [⟨1, 5, true, false, false, true, false⟩, ⟨2, 5, false, true, false, true, false⟩]
        (.ready [] [5] [])).calls =
      [(⟨1, 5, true, false, false, true, false⟩, FdKind.writable),
       (⟨2, 5, false, true, false, true, false⟩, FdKind.writable)] ∧
    (⟨1, 5, true, false, false, true, false⟩ : FdEvent).watchesW = false := by
  exact ⟨by decide, rfl⟩

/-- C3 amended: on a successful wait with no stop requests, the dispatch of
`handle_fd_events` performs, in registry order, exactly one invocation per
enabled event and per RESULT SET containing its descriptor — membership in a
result set is induced by the union of all enabled events' interests on that
descriptor, not by the event's own interest mask, so an event sharing its
descriptor with another event that watches a different condition is also
invoked for that condition (see the counterexample).  For a duplicate-free
registry each (event, ready set) pair is dispatched exactly once. -/
theorem dispatch_once_per_ready_set (L : List FdEvent) (S : FdSets)
    (hs : ∀ x ∈ L, x.cbStop = false) (hnd : L.Nodup) :
    handle_fd_events L S = (dispatchSpec L S, false) ∧
    ∀ ev k, (dispatchSpec L S).count (ev, k) =
      if ev ∈ L ∧ ev.enabled = true ∧ ev.fd ∈ S.sel k then 1 else 0 :=
  ⟨handle_fd_events_of_no_stop L S hs, fun ev k => dispatchSpec_count L S hnd ev k⟩

/-- C3 witness: a single enabled readable-watching event on descriptor 5 with
the readable result set `[5]` is dispatched exactly once. -/
theorem dispatch_once_witness :
    handle_fd_events [⟨1, 5, true, false, false, true, false⟩] ⟨[5], [], []⟩ =
      (dispatchSpec [⟨1, 5, true, false, false, true, false⟩] ⟨[5], [], []⟩, false) ∧
    (dispatchSpec [⟨1, 5, true, false, false, true, false⟩] ⟨[5], [], []⟩).count
      (⟨1, 5, true, false, false, true, false⟩, FdKind.readable) = 1 := by
  refine ⟨(dispatch_once_per_ready_set _ ⟨[5], [], []⟩ (by decide) (by decide)).1, ?_⟩
  rw [(dispatch_once_per_ready_set [⟨1, 5, true, false, false, true, false⟩] ⟨[5], [], []⟩
    (by decide) (by decide)).2 ⟨1, 5, true, false, false, true, false⟩ FdKind.readable]
  decide

theorem fdInsert_mem (f x : Nat) (s : List Nat) :
    x ∈ fdInsert f s ↔ x = f ∨ x ∈ s := by
  unfold fdInsert
  by_cases hf : f ∈ s
  · rw [if_pos hf]
    constructor
    · exact Or.inr
    · rintro (rfl | h)
      · exact hf
      · exact h
  · rw [if_neg hf]
    simp [List.mem_append, or_comm]

theorem fdInsert_nodup (f : Nat) (s : List Nat) (h : s.Nodup) : (fdInsert f s).Nodup := by
  unfold fdInsert
  by_cases hf : f ∈ s
  · rw [if_pos hf]; exact h
  · rw [if_neg hf]
    simp [List.nodup_append, h, hf]

/-- Proof-side view of one component of the `prepare_fd_sets` fold: collect
the descriptors of the events selected by `p`, in order, without duplicates. -/
def selFold (p : FdEvent → Bool) (L : List FdEvent) (acc : List Nat) : List Nat :=
  L.foldl (fun s e => if p e then fdInsert e.fd s else s) acc

theorem selFold_mem (p : FdEvent → Bool) :
    ∀ (L : List FdEvent) (acc : List Nat) (x : Nat),
      (x ∈ selFold p L acc ↔ x ∈ acc ∨ ∃ e ∈ L, p e = true ∧ e.fd = x) := by
  intro L
  induction L with
  | nil => intro acc x; simp [selFold]
  | cons e rest ih =>
    intro acc x
    have hstep : selFold p (e :: rest) acc =
        selFold p rest (if p e then fdInsert e.fd acc else acc) := rfl
    rw [hstep, ih]
    by_cases hp : p e
    · rw [if_pos hp]
      simp only [fdInsert_mem, List.mem_cons, hp, true_and]
      constructor
      · rintro ((rfl | hacc) | ⟨y, hy, hpy, rfl⟩)
        · exact Or.inr ⟨e, Or.inl rfl, hp, rfl⟩
        · exact Or.inl hacc
        · exact Or.inr ⟨y, Or.inr hy, hpy, rfl⟩
      · rintro (hacc | ⟨y, (rfl | hy), hpy, rfl⟩)
        · exact Or.inl (Or.inr hacc)
        · exact Or.inl (Or.inl rfl)
        · exact Or.inr ⟨y, hy, hpy, rfl⟩
    · rw [if_neg hp]
      constructor
      · rintro (hacc | ⟨y, hy, hpy, rfl⟩)
        · exact Or.inl hacc
        · exact Or.inr ⟨y, List.mem_cons_of_mem _ hy, hpy, rfl⟩
      · rintro (hacc | ⟨y, hy, hpy, rfl⟩)
        · exact Or.inl hacc
        · rcases List.mem_cons.mp hy with rfl | hy'
          · exact absurd hpy hp
          · exact Or.inr ⟨y, hy', hpy, rfl⟩

theorem selFold_nodup (p : FdEvent → Bool) :
    ∀ (L : List FdEvent) (acc : List Nat), acc.Nodup → (selFold p L acc).Nodup := by
  intro L
  induction L with
  | nil => intro acc h; exact h
  | cons e rest ih =>
    intro acc h
    have hstep : selFold p (e :: rest) acc =
        selFold p rest (if p e then fdInsert e.fd acc else acc) := rfl
    rw [hstep]
    apply ih
    by_cases hp : p e
    · rw [if_pos hp]; exact fdInsert_nodup _ _ h
    · rw [if_neg hp]; exact h

theorem prepStep_rs (s : FdSets) (e : FdEvent) :
    (prepStep s e).rs = if e.enabled && e.watchesR then fdInsert e.fd s.rs else s.rs := by
  by_cases h1 : e.enabled <;> by_cases h2 : e.watchesR <;> by_cases h3 : e.watchesW <;>
    by_cases h4 : e.watchesE <;> simp [prepStep, h1, h2, h3, h4]

theorem prepStep_ws (s : FdSets) (e : FdEvent) :
    (prepStep s e).ws = if e.enabled && e.watchesW then fdInsert e.fd s.ws else s.ws := by
  by_cases h1 : e.enabled <;> by_cases h2 : e.watchesR <;> by_cases h3 : e.watchesW <;>
    by_cases h4 : e.watchesE <;> simp [prepStep, h1, h2, h3, h4]

theorem prepStep_es (s : FdSets) (e : FdEvent) :
    (prepStep s e).es = if e.enabled && e.watchesE then fdInsert e.fd s.es else s.es := by
  by_cases h1 : e.enabled <;> by_cases h2 : e.watchesR <;> by_cases h3 : e.watchesW <;>
    by_cases h4 : e.watchesE <;> simp [prepStep, h1, h2, h3, h4]

theorem foldl_prepStep_rs :
    ∀ (L : List FdEvent) (acc : FdSets),
      (List.foldl prepStep acc L).rs = selFold (fun e => e.enabled && e.watchesR) L acc.rs := by
  intro L
  induction L with
  | nil => intro acc; rfl
  | cons e rest ih =>
    intro acc
    have hstep : selFold (fun e => e.enabled && e.watchesR) (e :: rest) acc.rs =
        selFold (fun e => e.enabled && e.watchesR) rest
          (if e.enabled && e.watchesR then fdInsert e.fd acc.rs else acc.rs) := rfl
    rw [List.foldl_cons, ih, hstep, prepStep_rs]

theorem foldl_prepStep_ws :
    ∀ (L : List FdEvent) (acc : FdSets),
      (List.foldl prepStep acc L).ws = selFold (fun e => e.enabled && e.watchesW) L acc.ws := by
  intro L
  induction L with
  | nil => intro acc; rfl
  | cons e rest ih =>
    intro acc
    have hstep : selFold (fun e => e.enabled && e.watchesW) (e :: rest) acc.ws =
        selFold (fun e => e.enabled && e.watchesW) rest
          (if e.enabled && e.watchesW then fdInsert e.fd acc.ws else acc.ws) := rfl
    rw [List.foldl_cons, ih, hstep, prepStep_ws]

theorem foldl_prepStep_es :
    ∀ (L : List FdEvent) (acc : FdSets),
      (List.foldl prepStep acc L).es = selFold (fun e => e.enabled && e.watchesE) L acc.es := by
  intro L
  induction L with
  | nil => intro acc; rfl
  | cons e rest ih =>
    intro acc
    have hstep : selFold (fun e => e.enabled && e.watchesE) (e :: rest) acc.es =
        selFold (fun e => e.enabled && e.watchesE) rest
          (if e.enabled && e.watchesE then fdInsert e.fd acc.es else acc.es) := rfl
    rw [List.foldl_cons, ih, hstep, prepStep_es]

theorem mem_prepare_rs (L : List FdEvent) (x : Nat) :
    x ∈ (prepare_fd_sets L).rs ↔
      ∃ e ∈ L, e.enabled = true ∧ e.watchesR = true ∧ e.fd = x := by
  unfold prepare_fd_sets
  rw [foldl_prepStep_rs, selFold_mem]
  simp [Bool.and_eq_true, and_assoc]

theorem mem_prepare_ws (L : List FdEvent) (x : Nat) :
    x ∈ (prepare_fd_sets L).ws ↔
      ∃ e ∈ L, e.enabled = true ∧ e.watchesW = true ∧ e.fd = x := by
  unfold prepare_fd_sets
  rw [foldl_prepStep_ws, selFold_mem]
  simp [Bool.and_eq_true, and_assoc]

theorem mem_prepare_es (L : List FdEvent) (x : Nat) :
    x ∈ (prepare_fd_sets L).es ↔
      ∃ e ∈ L, e.enabled = true ∧ e.watchesE = true ∧ e.fd = x := by
  unfold prepare_fd_sets
  rw [foldl_prepStep_es, selFold_mem]
  simp [Bool.and_eq_true, and_assoc]

theorem nodup_prepare_rs (L : List FdEvent) : (prepare_fd_sets L).rs.Nodup := by
  unfold prepare_fd_sets
  rw [foldl_prepStep_rs]
  exact selFold_nodup _ _ _ List.nodup_nil

theorem nodup_prepare_ws (L : List FdEvent) : (prepare_fd_sets L).ws.Nodup := by
  unfold prepare_fd_sets
  rw [foldl_prepStep_ws]
  exact selFold_nodup _ _ _ List.nodup_nil

theorem nodup_prepare_es (L : List FdEvent) : (prepare_fd_sets L).es.Nodup := by
  unfold prepare_fd_sets
  rw [foldl_prepStep_es]
  exact selFold_nodup _ _ _ List.nodup_nil

theorem filter_imp_sublist {α : Type _} (p q : α → Bool) (h : ∀ a, p a = true → q a = true) :
    ∀ l : List α, List.Sublist (l.filter p) (l.filter q) := by
  intro l
  induction l with
  | nil => simp
  | cons a l ih =>
    by_cases hp : p a
    · rw [List.filter_cons_of_pos hp, List.filter_cons_of_pos (h a hp)]
      exact ih.cons₂ a
    · rw [List.filter_cons_of_neg hp]
      by_cases hq : q a
      · rw [List.filter_cons_of_pos hq]
        exact ih.cons a
      · rw [List.filter_cons_of_neg hq]
        exact ih

theorem length_eq_of_nodup_of_mem_iff {α : Type _} [DecidableEq α] (l₁ l₂ : List α)
    (h₁ : l₁.Nodup) (h₂ : l₂.Nodup) (hm : ∀ x, x ∈ l₁ ↔ x ∈ l₂) : l₁.length = l₂.length := by
  have hfin : l₁.toFinset = l₂.toFinset := by
    ext x
    simp [List.mem_toFinset, hm x]
  rw [← List.toFinset_card_of_nodup h₁, ← List.toFinset_card_of_nodup h₂, hfin]

theorem countP_eq_ready_length (L : List FdEvent) (S : List Nat) (hS : S.Nodup)
    (hd : ((L.filter (fun x => x.enabled)).map (fun x => x.fd)).Nodup)
    (hsub : ∀ s ∈ S, ∃ x ∈ L, x.enabled = true ∧ x.fd = s) :
    L.countP (fun x => x.enabled && decide (x.fd ∈ S)) = S.length := by
  have hsubl : List.Sublist
      (L.filter (fun x => x.enabled && decide (x.fd ∈ S))) (L.filter (fun x => x.enabled)) :=
    filter_imp_sublist _ _ (fun a ha => by
      simp only [Bool.and_eq_true] at ha
      exact ha.1) L
  have hMnd : ((L.filter (fun x => x.enabled && decide (x.fd ∈ S))).map
      (fun x => x.fd)).Nodup := hd.sublist (hsubl.map _)
  have hmm : ∀ y, (y ∈ (L.filter (fun x => x.enabled && decide (x.fd ∈ S))).map
      (fun x => x.fd)) ↔ y ∈ S := by
    intro y
    constructor
    · intro hy
      rcases List.mem_map.mp hy with ⟨x, hx, rfl⟩
      have hq := (List.mem_filter.mp hx).2
      simp only [Bool.and_eq_true, decide_eq_true_eq] at hq
      exact hq.2
    · intro hy
      rcases hsub y hy with ⟨x, hxL, hxe, rfl⟩
      exact List.mem_map.mpr ⟨x, List.mem_filter.mpr ⟨hxL, by simp [hxe, hy]⟩, rfl⟩
  have hlen := length_eq_of_nodup_of_mem_iff _ S hMnd hS hmm
  rw [List.countP_eq_length_filter]
  rw [← List.length_map (L.filter (fun x => x.enabled && decide (x.fd ∈ S))) (fun x => x.fd)]
  exact hlen

theorem dispatchSpec_length (L : List FdEvent) (S : FdSets) :
    (dispatchSpec L S).length =
      L.countP (fun x => x.enabled && decide (x.fd ∈ S.rs)) +
      L.countP (fun x => x.enabled && decide (x.fd ∈ S.ws)) +
      L.countP (fun x => x.enabled && decide (x.fd ∈ S.es)) := by
  induction L with
  | nil => simp [dispatchSpec]
  | cons a rest ih =>
    simp only [dispatchSpec, List.length_append, ih, List.countP_cons]
    by_cases h1 : a.enabled && decide (a.fd ∈ S.rs) <;>
      by_cases h2 : a.enabled && decide (a.fd ∈ S.ws) <;>
      by_cases h3 : a.enabled && decide (a.fd ∈ S.es) <;>
      simp [h1, h2, h3] <;> omega

/-- C6 counterexample: two distinct enabled events (ids 1 and 2) watch the
same descriptor 3 for readability.  When it becomes readable, `select`
reports one ready (descriptor, condition) bit, so `event_system_sleep`
returns 1, but both callbacks are invoked: the number of dispatched matches
is 2, refuting "returns exactly the number of matches dispatched". -/
theorem sleep_ret_not_dispatch_count :
    (event_system_sleep 5
        [⟨1, 3, true, false, false, true, false⟩, ⟨2, 3, true, false, false, true, false⟩]
        (.ready [3] [] [])).ret = 1 ∧
    (event_system_sleep 5
        [⟨1, 3, true, false, false, true, false⟩, ⟨2, 3, true, false, false, true, false⟩]
        (.ready [3] [] [])).calls.length = 2 := by
  exact ⟨by decide, by decide⟩

/-- C6 amended: on success `event_system_sleep` returns `select`'s count of
ready (descriptor, condition) bits, which equals the number of callback
invocations dispatched in that wait-completion precisely under the additional
assumptions that the enabled events carry pairwise distinct descriptors and
that no callback requests a stop; with a shared descriptor (see the
counterexample) or an early stop the two quantities differ. -/
theorem sleep_ret_counts_ready_pairs (t : Nat) (L : List FdEvent) (r w e : List Nat)
    (hn : get_max_nfds L < FD_SETSIZE)
    (hd : ((L.filter (fun x => x.enabled)).map (fun x => x.fd)).Nodup)
    (hs : ∀ x ∈ L, x.cbStop = false) :
    (event_system_sleep t L (.ready r w e)).ret =
      ((event_system_sleep t L (.ready r w e)).calls.length : Int) := by
  unfold event_system_sleep
  rw [if_neg (by omega)]
  simp only [handle_fd_events_of_no_stop L _ hs]
  rw [dispatchSpec_length]
  have hRS : ((prepare_fd_sets L).rs.filter (fun x => decide (x ∈ r))).Nodup :=
    (nodup_prepare_rs L).filter _
  have hWS : ((prepare_fd_sets L).ws.filter (fun x => decide (x ∈ w))).Nodup :=
    (nodup_prepare_ws L).filter _
  have hES : ((prepare_fd_sets L).es.filter (fun x => decide (x ∈ e))).Nodup :=
    (nodup_prepare_es L).filter _
  have hsubR : ∀ s ∈ (prepare_fd_sets L).rs.filter (fun x => decide (x ∈ r)),
      ∃ x ∈ L, x.enabled = true ∧ x.fd = s := by
    intro s hsmem
    have hmem := (List.mem_filter.mp hsmem).1
    rcases (mem_prepare_rs L s).mp hmem with ⟨x, hxL, hxe, _, rfl⟩
    exact ⟨x, hxL, hxe, rfl⟩
  have hsubW : ∀ s ∈ (prepare_fd_sets L).ws.filter (fun x => decide (x ∈ w)),
      ∃ x ∈ L, x.enabled = true ∧ x.fd = s := by
    intro s hsmem
    have hmem := (List.mem_filter.mp hsmem).1
    rcases (mem_prepare_ws L s).mp hmem with ⟨x, hxL, hxe, _, rfl⟩
    exact ⟨x, hxL, hxe, rfl⟩
  have hsubE : ∀ s ∈ (prepare_fd_sets L).es.filter (fun x => decide (x ∈ e)),
      ∃ x ∈ L, x.enabled = true ∧ x.fd = s := by
    intro s hsmem
    have hmem := (List.mem_filter.mp hsmem).1
    rcases (mem_prepare_es L s).mp hmem with ⟨x, hxL, hxe, _, rfl⟩
    exact ⟨x, hxL, hxe, rfl⟩
  rw [countP_eq_ready_length L _ hRS hd hsubR,
    countP_eq_ready_length L _ hWS hd hsubW,
    countP_eq_ready_length L _ hES hd hsubE]

/-- C6 witness: two enabled events with distinct descriptors (3 readable, 4
writable), both ready: the return value equals the two dispatched calls. -/
theorem sleep_ret_counts_witness :
    (event_system_sleep 5
        [⟨1, 3, true, false, false, true, false⟩, ⟨2, 4, false, true, false, true, false⟩]
        (.ready [3] [4] [])).ret =
      ((event_system_sleep 5
        [⟨1, 3, true, false, false, true, false⟩, ⟨2, 4, false, true, false, true, false⟩]
        (.ready [3] [4] [])).calls.length : Int) :=
  sleep_ret_counts_ready_pairs 5
    [⟨1, 3, true, false, false, true, false⟩, ⟨2, 4, false, true, false, true, false⟩]
    [3] [4] [] (by decide) (by decide) (by decide)

/-- C5 counterexample: a single DISABLED event with no interest flags on
descriptor 2000 makes `get_max_nfds` return 2001, so `event_system_sleep`
fails before waiting, although no enabled, interest-bearing fd event exists
(the ceiling computed from enabled, interest-bearing events alone would be 1,
far below `FD_SETSIZE`): the ceiling check counts every registered event. -/
theorem nfds_counts_disabled_events :
    event_system_sleep 5 [⟨1, 2000, false, false, false, false, false⟩]
        (.ready [2000] [] []) = ⟨-1, [], false⟩ ∧
    (⟨1, 2000, false, false, false, false, false⟩ : FdEvent).enabled = false ∧
    get_max_nfds (([⟨1, 2000, false, false, false, false, false⟩] : List FdEvent).filter
      (fun x => x.enabled && (x.watchesR || x.watchesW || x.watchesE))) < FD_SETSIZE ∧
    FD_SETSIZE ≤ get_max_nfds [⟨1, 2000, false, false, false, false, false⟩] := by
  exact ⟨by decide, rfl, by decide, by decide⟩

/-- How one iteration of the `while (1)` loop of `event_system_start` ends:
`terminated` models `break`/`return` (loop exit), `next l` models `continue`
(or reaching the bottom of the body) with `l` the timed-event registry as left
by the iteration, and `ub` marks the dereference of a `next_event` pointer
that was never written (unreachable from the states the loop produces). -/
inductive IterResult where
  | terminated
  | next (timed : List TimedEvent)
  | ub
deriving DecidableEq

/-- Observable trace of one loop iteration: how it ends, the fd callbacks
dispatched inside `event_system_sleep`, and the timed event whose callback
was invoked (if any). -/
structure IterTrace where
  result : IterResult
  fdCalls : List (FdEvent × FdKind)
  timedCall : Option TimedEvent
deriving DecidableEq

/-- Lines 196-201 of `event_system_start`: fire the candidate timed event;
a non-zero callback return breaks the loop, otherwise
`next_event->last_call = cur_time + time_to_wait` (a `uint64_t` sum). -/
def fire_due_event (timed : List TimedEvent) (cand : Option Nat)
    (cur_time time_to_wait : Nat) (calls : List (FdEvent × FdKind)) : IterTrace :=
  match cand with
  | none => ⟨.ub, calls, none⟩
  | some i =>
    match timed.get? i with
    | none => ⟨.ub, calls, none⟩
    | some ev =>
      if ev.cbStop then ⟨.terminated, calls, some ev⟩
      else ⟨.next (timed.set i { ev with last_call := (cur_time + time_to_wait) % U64 }),
            calls, some ev⟩

/-- One iteration of the `while (1)` loop of `event_system_start`
(lines 172-202), for the current registries, the current time read at the top
of the body, and the outcome the kernel gives this iteration's `select`:

* no deadline (`time_to_wait == UINT64_MAX`): sleep with `~0`; `-1` breaks,
  anything else continues;
* a positive bounded wait: sleep; `-1` returns, any `result >= 0` — including
  `0`, a pure timeout — continues; the fall-through to the firing code is kept
  (it is unreachable, since `event_system_sleep` never returns below `-1`);
* `time_to_wait == 0`: fire the candidate without sleeping. -/
def event_system_start_iter (timed : List TimedEvent) (fd : List FdEvent)
    (cur_time : Nat) (oc : SelectOutcome) : IterTrace :=
  let c := calc_next_timed_event timed cur_time
  if c.1 = U64MAX then
    let s := event_system_sleep U64MAX fd oc
    if s.ret = -1 then ⟨.terminated, s.calls, none⟩
    else ⟨.next timed, s.calls, none⟩
  else if c.1 ≠ 0 then
    let s := event_system_sleep c.1 fd oc
    if s.ret = -1 then ⟨.terminated, s.calls, none⟩
    else if 0 ≤ s.ret then ⟨.next timed, s.calls, none⟩
    else fire_due_event timed c.2 cur_time c.1 s.calls
  else fire_due_event timed c.2 cur_time c.1 []

theorem sleep_ret_neg_one_or_nonneg (t : Nat) (fd : List FdEvent) (oc : SelectOutcome) :
    (event_system_sleep t fd oc).ret = -1 ∨ 0 ≤ (event_system_sleep t fd oc).ret := by
  unfold event_system_sleep
  by_cases hn : FD_SETSIZE ≤ get_max_nfds fd
  · rw [if_pos hn]; exact Or.inl rfl
  · rw [if_neg hn]
    cases oc with
    | fail => exact Or.inl rfl
    | ready r w e => exact Or.inr (by positivity)

/-- C1: after a bounded wait completes without failure, the iteration always
continues — `else if (result >= 0) continue;` also catches `result == 0`, the
genuine-timeout case — so the candidate's callback is NOT invoked and no
`last_call` is updated; the registry is returned unchanged.  The claimed
behaviour (fire on timeout and set `last_call = now + wait_ns`) sits in code
that is unreachable after a bounded wait. -/
theorem timeout_does_not_fire_candidate (timed : List TimedEvent) (fd : List FdEvent)
    (cur_time : Nat) (oc : SelectOutcome)
    (h1 : (calc_next_timed_event timed cur_time).1 ≠ U64MAX)
    (h2 : (calc_next_timed_event timed cur_time).1 ≠ 0)
    (h3 : (event_system_sleep (calc_next_timed_event timed cur_time).1 fd oc).ret ≠ -1) :
    event_system_start_iter timed fd cur_time oc =
      ⟨.next timed,
       (event_system_sleep (calc_next_timed_event timed cur_time).1 fd oc).calls,
       none⟩ := by
  have h4 : 0 ≤ (event_system_sleep (calc_next_timed_event timed cur_time).1 fd oc).ret := by
    rcases sleep_ret_neg_one_or_nonneg (calc_next_timed_event timed cur_time).1 fd oc with
      h | h
    · exact absurd h h3
    · exact h
  unfold event_system_start_iter
  rw [if_neg h1, if_pos h2, if_neg h3, if_pos h4]

/-- C1 witness: one enabled timed event (interval 100, `last_call` 0) at
`now = 0`, no fd events, and a `select` that times out (nothing ready): the
wait is 100 and the iteration continues without firing anything. -/
theorem timeout_does_not_fire_witness :
    (calc_next_timed_event [⟨100, 0, true, false⟩] 0).1 = 100 ∧
    event_system_start_iter [⟨100, 0, true, false⟩] [] 0 (.ready [] [] []) =
      ⟨.next [⟨100, 0, true, false⟩], [], none⟩ :=
  ⟨by decide,
   timeout_does_not_fire_candidate [⟨100, 0, true, false⟩] [] 0 (.ready [] [] [])
     (by decide) (by decide) (by decide)⟩

/-- C2: with fd events `e₁` (id 1, descriptor 3, stop-requesting callback) and
`e₂` (id 2, descriptor 4), both enabled and readable-ready, dispatch halts
after `e₁` (`e₂` is not invoked — the first half of the claim holds) and
`handle_fd_events` computes the stop verdict `true`; but `event_system_sleep`
discards that verdict (line 116) and returns `select`'s count 2, so the loop
iteration continues instead of terminating. -/
theorem fd_stop_not_propagated :
    event_system_sleep 5
        [⟨1, 3, true, false, false, true, true⟩, ⟨2, 4, true, false, false, true, false⟩]
        (.ready [3, 4] [] []) =
      ⟨2, [(⟨1, 3, true, false, false, true, true⟩, FdKind.readable)], true⟩ ∧
    event_system_start_iter []
        [⟨1, 3, true, false, false, true, true⟩, ⟨2, 4, true, false, false, true, false⟩]
        0 (.ready [3, 4] [] []) =
      ⟨.next [], [(⟨1, 3, true, false, false, true, true⟩, FdKind.readable)], none⟩ := by
  exact ⟨by decide, by decide⟩

/-- C5 amended: the descriptor-ceiling check uses `get_max_nfds`, computed
over ALL registered fd events (enabled or not, interest-bearing or not; see
the counterexample).  When it reaches `FD_SETSIZE`, `event_system_sleep`
fails immediately — before blocking and without invoking any callback — and
any loop iteration that reaches the sleep (i.e. whose computed wait is
non-zero) terminates. -/
theorem nfds_ceiling_fails_before_wait (t : Nat) (fd : List FdEvent) (oc : SelectOutcome)
    (h : FD_SETSIZE ≤ get_max_nfds fd) :
    event_system_sleep t fd oc = ⟨-1, [], false⟩ ∧
    ∀ (timed : List TimedEvent) (cur_time : Nat),
      (calc_next_timed_event timed cur_time).1 ≠ 0 →
      event_system_start_iter timed fd cur_time oc = ⟨.terminated, [], none⟩ := by
  have hsleep : ∀ t' : Nat, event_system_sleep t' fd oc = ⟨-1, [], false⟩ := by
    intro t'
    unfold event_system_sleep
    rw [if_pos h]
  refine ⟨hsleep t, ?_⟩
  intro timed cur_time hw
  unfold event_system_start_iter
  by_cases hmax : (calc_next_timed_event timed cur_time).1 = U64MAX
  · rw [if_pos hmax]
    simp [hsleep]
  · rw [if_neg hmax, if_pos hw]
    simp [hsleep]

/-- C5 witness: the sole registered fd event has descriptor 2000 (disabled,
no interests), a non-empty timed registry computes a positive wait, and the
iteration terminates without dispatching anything. -/
theorem nfds_ceiling_witness :
    event_system_sleep 7 [⟨1, 2000, false, false, false, false, false⟩]
        (.ready [] [] []) = ⟨-1, [], false⟩ ∧
    event_system_start_iter [⟨100, 0, true, false⟩]
        [⟨1, 2000, false, false, false, false, false⟩] 0 (.ready [] [] []) =
      ⟨.terminated, [], none⟩ :=
  ⟨(nfds_ceiling_fails_before_wait 7 [⟨1, 2000, false, false, false, false, false⟩]
      (.ready [] [] []) (by decide)).1,
   (nfds_ceiling_fails_before_wait 7 [⟨1, 2000, false, false, false, false, false⟩]
      (.ready [] [] []) (by decide)).2 [⟨100, 0, true, false⟩] 0 (by decide)⟩

/-- C4: the sub-second conversion of `evtime_to_timeval` is exact only under
the timespec (nanosecond) reading that the function's own documentation
claims ("convert ... to timespec format"): recombining seconds and remainder
as nanoseconds recovers the input for every `uint64_t` value.  But the pair is
built as a `struct timeval` and handed to `select`, which reads the second
field as MICROseconds: at input 1 ns the pair denotes 1000 ns, a thousandfold
error; and for `UINT64_MAX` ("infinite") the field holds 709551615, far above
the valid `select` bound of 10^6-1, so the maximum duration is not a valid
block-indefinitely timeout but a malformed one (a `timeval`-carrying `select`
never blocks indefinitely; that needs a NULL timeout pointer). -/
theorem evtime_to_timeval_usec_is_nanoseconds :
    timeval_to_evtime ⟨(evtime_to_timeval 1).sec, (evtime_to_timeval 1).usec⟩ = 1 ∧
    timevalNs (evtime_to_timeval 1) = 1000 ∧
    timevalNs (evtime_to_timeval 1) ≠ 1 ∧
    (evtime_to_timeval U64MAX).usec = 709551615 ∧
    timevalValid (evtime_to_timeval U64MAX) = false := by
  refine ⟨rfl, rfl, by decide, by norm_num [evtime_to_timeval, U64MAX, U64, NS_PER_S], ?_⟩
  norm_num [timevalValid, evtime_to_timeval, U64MAX, U64, NS_PER_S, USEC_PER_S]

/-- The intrusive linkage of one event node: its `prev` and `next` pointers,
as (optional) keys of other nodes.  Events are identified by a `Nat` key
standing for the node's address. -/
structure Node where
  prev : Option Nat
  next : Option Nat
deriving DecidableEq

/-- Pointer-structure state of one registry (`struct timed_event_linked_list_s`
or `struct fd_event_linked_list_s`): the `first` and `last` head/tail pointers
and the heap assigning each event key its current linkage. -/
structure ListState where
  first : Option Nat
  last : Option Nat
  nodes : Nat → Node

/-- Heap update: overwrite the linkage of the node with key `i`. -/
def updNodes (f : Nat → Node) (i : Nat) (v : Node) : Nat → Node :=
  fun j => if j = i then v else f j

/-- An empty registry; the linkage content of unregistered nodes is arbitrary
(taken to be `⟨none, none⟩`). -/
def emptyListState : ListState := ⟨none, none, fun _ => ⟨none, none⟩⟩

/-- `add_timed_event` (lines 245-259), with the assignments in source order:
when the list has a tail, `event->prev = last; event->next = NULL;
last->next = event; last = event` — note that the two heap writes happen
one after the other, so re-adding the current tail leaves it self-linked;
otherwise the event becomes the sole element. -/
def add_timed_event (s : ListState) (e : Nat) : ListState :=
  match s.last with
  | some l =>
    let n1 := updNodes s.nodes e ⟨some l, none⟩
    let n2 := updNodes n1 l ⟨(n1 l).prev, some e⟩
    ⟨s.first, some e, n2⟩
  | none => ⟨some e, some e, updNodes s.nodes e ⟨none, none⟩⟩

/-- Third statement of `remove_timed_event` (line 275):
`if (event->prev) event->prev->next = event->next;`. -/
def removeFix1 (nodes : Nat → Node) (e : Nat) : Nat → Node :=
  match (nodes e).prev with
  | some p => updNodes nodes p ⟨(nodes p).prev, (nodes e).next⟩
  | none => nodes

/-- Fourth statement of `remove_timed_event` (line 276):
`if (event->next) event->next->prev = event->prev;`, reading `event`'s
linkage from the heap left by the third statement. -/
def removeFix2 (nodes : Nat → Node) (e : Nat) : Nat → Node :=
  match (nodes e).next with
  | some n => updNodes nodes n ⟨(nodes e).prev, (nodes n).next⟩
  | none => nodes

/-- `remove_timed_event` (lines 267-277), with the four statements in source
order: the head/tail repairs read the original heap, then the two pointer
fixups run one after the other. -/
def remove_timed_event (s : ListState) (e : Nat) : ListState :=
  ⟨if s.first = some e then (s.nodes e).next else s.first,
   if s.last = some e then (s.nodes e).prev else s.last,
   removeFix2 (removeFix1 s.nodes e) e⟩

/-- `add_fd_event` (lines 287-303): linkage code identical to
`add_timed_event`; the trailing `event->options = options` writes a field of
the event record itself, not the linkage, and is outside this linkage
state. -/
def add_fd_event (s : ListState) (e : Nat) : ListState :=
  match s.last with
  | some l =>
    let n1 := updNodes s.nodes e ⟨some l, none⟩
    let n2 := updNodes n1 l ⟨(n1 l).prev, some e⟩
    ⟨s.first, some e, n2⟩
  | none => ⟨some e, some e, updNodes s.nodes e ⟨none, none⟩⟩

/-- Follow `next` pointers from a start pointer, collecting keys, with fuel
bounding the walk (the C `for` loops walk until `NULL`). -/
def traverseFrom (nodes : Nat → Node) : Option Nat → Nat → List Nat
  | none, _ => []
  | some _, 0 => []
  | some a, fuel + 1 => a :: traverseFrom nodes (nodes a).next fuel

/-- Doubly-linked-list segment predicate: `dlseg nodes pr fr lt nx l` states
that the keys `l` form a well-linked chain whose first node is pointed to by
`fr` and has `prev = pr`, and whose last node is pointed to by `lt` and has
`next = nx`; an empty segment forces `fr = nx` and `lt = pr`. -/
def dlseg (nodes : Nat → Node) : Option Nat → Option Nat → Option Nat → Option Nat →
    List Nat → Prop
  | pr, fr, lt, nx, [] => fr = nx ∧ lt = pr
  | pr, fr, lt, nx, a :: l =>
    fr = some a ∧ (nodes a).prev = pr ∧ dlseg nodes (some a) (nodes a).next lt nx l

/-- A registry state faithfully holds the (duplicate-free) key list `l`. -/
def represents (s : ListState) (l : List Nat) : Prop :=
  l.Nodup ∧ dlseg s.nodes none s.first s.last none l

/-- A registry operation: append an event or detach an event. -/
inductive RegOp where
  | add (e : Nat)
  | remove (e : Nat)
deriving DecidableEq

/-- Abstract effect of one operation on the key list. -/
def applyOp (l : List Nat) : RegOp → List Nat
  | .add e => l ++ [e]
  | .remove e => l.erase e

/-- Abstract effect of an operation sequence. -/
def applyOps (ops : List RegOp) (l : List Nat) : List Nat := ops.foldl applyOp l

/-- Concrete effect of one operation on the pointer structure. -/
def runOp (s : ListState) : RegOp → ListState
  | .add e => add_timed_event s e
  | .remove e => remove_timed_event s e

/-- Concrete effect of an operation sequence. -/
def runOps (ops : List RegOp) (s : ListState) : ListState := ops.foldl runOp s

/-- A sequence is legal from abstract state `l` when every added event is not
currently registered and every removed event is currently registered. -/
def legalB : List RegOp → List Nat → Bool
  | [], _ => true
  | .add e :: ops, l => !(decide (e ∈ l)) && legalB ops (l ++ [e])
  | .remove e :: ops, l => decide (e ∈ l) && legalB ops (l.erase e)

/-- Number of add operations. -/
def countAdds : List RegOp → Nat
  | [] => 0
  | .add _ :: ops => countAdds ops + 1
  | .remove _ :: ops => countAdds ops

/-- Number of remove operations. -/
def countRemoves : List RegOp → Nat
  | [] => 0
  | .add _ :: ops => countRemoves ops
  | .remove _ :: ops => countRemoves ops + 1

/-- The added keys, in order of addition. -/
def addsList : List RegOp → List Nat
  | [] => []
  | .add e :: ops => e :: addsList ops
  | .remove _ :: ops => addsList ops

theorem updNodes_same (f : Nat → Node) (i : Nat) (v : Node) : updNodes f i v i = v := by
  simp [updNodes]

theorem updNodes_other (f : Nat → Node) (i : Nat) (v : Node) {j : Nat} (h : j ≠ i) :
    updNodes f i v j = f j := by
  simp [updNodes, h]

theorem dlseg_congr {nodes nodes' : Nat → Node} :
    ∀ {l : List Nat} {pr fr lt nx}, dlseg nodes pr fr lt nx l →
      (∀ a ∈ l, nodes' a = nodes a) → dlseg nodes' pr fr lt nx l := by
  intro l
  induction l with
  | nil => intro pr fr lt nx h _; exact h
  | cons a l ih =>
    intro pr fr lt nx h hcong
    obtain ⟨h1, h2, h3⟩ := h
    have ha : nodes' a = nodes a := hcong a (List.mem_cons_self _ _)
    refine ⟨h1, by rw [ha]; exact h2, ?_⟩
    rw [ha]
    exact ih h3 (fun x hx => hcong x (List.mem_cons_of_mem _ hx))

theorem dlseg_append {nodes : Nat → Node} :
    ∀ (u v : List Nat) (pr fr lt nx : Option Nat),
      dlseg nodes pr fr lt nx (u ++ v) ↔
        ∃ k j, dlseg nodes pr fr k j u ∧ dlseg nodes k j lt nx v := by
  intro u
  induction u with
  | nil =>
    intro v pr fr lt nx
    constructor
    · intro h
      exact ⟨pr, fr, ⟨rfl, rfl⟩, h⟩
    · rintro ⟨k, j, ⟨h1, h2⟩, h3⟩
      rw [← h1] at h3
      rw [h2] at h3
      exact h3
  | cons a u ih =>
    intro v pr fr lt nx
    constructor
    · rintro ⟨h1, h2, h3⟩
      rcases (ih v _ _ _ _).mp h3 with ⟨k, j, hu, hv⟩
      exact ⟨k, j, ⟨h1, h2, hu⟩, hv⟩
    · rintro ⟨k, j, ⟨h1, h2, hu⟩, hv⟩
      exact ⟨h1, h2, (ih v _ _ _ _).mpr ⟨k, j, hu, hv⟩⟩

theorem dlseg_last {nodes : Nat → Node} :
    ∀ {l : List Nat} {pr fr lt nx}, dlseg nodes pr fr lt nx l →
      ∀ (hne : l ≠ []), lt = some (l.getLast hne) := by
  intro l
  induction l with
  | nil => intro pr fr lt nx _ hne; exact absurd rfl hne
  | cons a l ih =>
    intro pr fr lt nx h hne
    obtain ⟨h1, h2, h3⟩ := h
    rcases eq_or_ne l [] with rfl | hl
    · obtain ⟨_, hlt⟩ := h3
      simpa using hlt
    · rw [List.getLast_cons hl]
      exact ih h3 hl

theorem dlseg_head {nodes : Nat → Node} {l : List Nat} {pr fr lt nx}
    (h : dlseg nodes pr fr lt nx l) : fr = if l = [] then nx else l.head? := by
  cases l with
  | nil => simpa using h.1
  | cons a l => simpa using h.1

theorem dlseg_retarget {nodes : Nat → Node} :
    ∀ {u : List Nat} {pr fr nx : Option Nat} {p : Nat},
      dlseg nodes pr fr (some p) nx u → u.Nodup → u ≠ [] → ∀ nx' : Option Nat,
      dlseg (updNodes nodes p ⟨(nodes p).prev, nx'⟩) pr fr (some p) nx' u := by
  intro u
  induction u with
  | nil => intro pr fr nx p _ _ hne; exact absurd rfl hne
  | cons a u ih =>
    intro pr fr nx p h hnd _ nx'
    obtain ⟨h1, h2, h3⟩ := h
    rcases eq_or_ne u [] with rfl | hu
    · obtain ⟨hn, hlt⟩ := h3
      have hpa : p = a := by simpa using hlt
      subst hpa
      refine ⟨h1, ?_, ?_, rfl⟩
      · rw [updNodes_same]; exact h2
      · rw [updNodes_same]
    · have hpu : p ∈ u := by
        have := dlseg_last h3 hu
        have hp : p = u.getLast hu := by simpa using this
        rw [hp]
        exact List.getLast_mem hu
      have hap : a ≠ p := by
        intro hc
        exact (List.nodup_cons.mp hnd).1 (hc ▸ hpu)
      refine ⟨h1, ?_, ?_⟩
      · rw [updNodes_other _ _ _ hap]; exact h2
      · rw [updNodes_other _ _ _ hap]
        exact ih h3 (List.nodup_cons.mp hnd).2 hu nx'

theorem traverseFrom_of_dlseg {nodes : Nat → Node} :
    ∀ {l : List Nat} {pr fr lt}, dlseg nodes pr fr lt none l →
      traverseFrom nodes fr l.length = l := by
  intro l
  induction l with
  | nil =>
    intro pr fr lt h
    rw [h.1]
    rfl
  | cons a l ih =>
    intro pr fr lt h
    obtain ⟨h1, _, h3⟩ := h
    rw [h1]
    show a :: traverseFrom nodes (nodes a).next l.length = a :: l
    rw [ih h3]

theorem represents_first {s : ListState} {l : List Nat} (h : represents s l) :
    s.first = l.head? := by
  have := dlseg_head h.2
  cases l with
  | nil => simpa using this
  | cons a l => simpa using this

theorem represents_last {s : ListState} {l : List Nat} (h : represents s l) :
    s.last = l.getLast? := by
  cases l with
  | nil => simpa using h.2.2
  | cons a l =>
    have := dlseg_last h.2 (List.cons_ne_nil a l)
    rw [this, List.getLast?_eq_getLast _ (List.cons_ne_nil a l)]

theorem add_timed_event_eq_none {s : ListState} {e : Nat} (h : s.last = none) :
    add_timed_event s e = ⟨some e, some e, updNodes s.nodes e ⟨none, none⟩⟩ := by
  unfold add_timed_event
  rw [h]

theorem add_timed_event_eq_some {s : ListState} {e x : Nat} (h : s.last = some x) :
    add_timed_event s e = ⟨s.first, some e,
      updNodes (updNodes s.nodes e ⟨some x, none⟩) x
        ⟨((updNodes s.nodes e ⟨some x, none⟩) x).prev, some e⟩⟩ := by
  unfold add_timed_event
  rw [h]

theorem add_represents {s : ListState} {l : List Nat} {e : Nat}
    (h : represents s l) (he : e ∉ l) :
    represents (add_timed_event s e) (l ++ [e]) := by
  obtain ⟨hnd, hseg⟩ := h
  have hndnew : (l ++ [e]).Nodup := by
    rw [List.nodup_append]
    refine ⟨hnd, List.nodup_singleton e, ?_⟩
    intro x hx hx1
    rw [List.mem_singleton.mp hx1] at hx
    exact he hx
  cases hl : s.last with
  | none =>
    have hleq : l = [] := by
      cases l with
      | nil => rfl
      | cons a l' =>
        have := dlseg_last hseg (List.cons_ne_nil a l')
        rw [hl] at this
        exact absurd this (by simp)
    subst hleq
    rw [add_timed_event_eq_none hl]
    refine ⟨by simp, rfl, ?_, ?_, rfl⟩
    · simp [updNodes]
    · simp [updNodes]
  | some x =>
    have hlne : l ≠ [] := by
      rintro rfl
      obtain ⟨-, h2⟩ := hseg
      rw [hl] at h2
      exact absurd h2 (by simp)
    have hx : x = l.getLast hlne := by
      have := dlseg_last hseg hlne
      rw [hl] at this
      simpa using this
    have hxl : x ∈ l := hx ▸ List.getLast_mem hlne
    have hex : e ≠ x := fun hc => he (hc ▸ hxl)
    rw [add_timed_event_eq_some hl]
    refine ⟨hndnew, ?_⟩
    have hn1x : (updNodes s.nodes e ⟨some x, none⟩) x = s.nodes x :=
      updNodes_other _ _ _ (Ne.symm hex)
    rw [hn1x]
    apply (dlseg_append l [e] none s.first (some e) none).mpr
    refine ⟨some x, some e, ?_, ?_, ?_, ?_, rfl⟩
    · -- the old chain, with x's next retargeted to e
      have hseg1 : dlseg (updNodes s.nodes e ⟨some x, none⟩) none s.first (some x) none l := by
        apply dlseg_congr ?_ (fun a ha => updNodes_other _ _ _ (fun hc => he (by
          rw [← hc]; exact ha)))
        rw [← hl]
        exact hseg
      have := dlseg_retarget hseg1 hnd hlne (some e)
      rw [hn1x] at this
      exact this
    · rfl
    · -- prev of e
      simp [updNodes, hex]
    · -- next of e closes the singleton segment
      simp [updNodes, hex]

theorem remove_timed_event_first (s : ListState) (e : Nat) :
    (remove_timed_event s e).first =
      (if s.first = some e then (s.nodes e).next else s.first) := rfl

theorem remove_timed_event_last (s : ListState) (e : Nat) :
    (remove_timed_event s e).last =
      (if s.last = some e then (s.nodes e).prev else s.last) := rfl

theorem remove_timed_event_nodes (s : ListState) (e : Nat) :
    (remove_timed_event s e).nodes = removeFix2 (removeFix1 s.nodes e) e := rfl

theorem removeFix1_none {nodes : Nat → Node} {e : Nat} (h : (nodes e).prev = none) :
    removeFix1 nodes e = nodes := by
  unfold removeFix1
  rw [h]

theorem removeFix1_some {nodes : Nat → Node} {e p : Nat} (h : (nodes e).prev = some p) :
    removeFix1 nodes e = updNodes nodes p ⟨(nodes p).prev, (nodes e).next⟩ := by
  unfold removeFix1
  rw [h]

theorem removeFix2_none {nodes : Nat → Node} {e : Nat} (h : (nodes e).next = none) :
    removeFix2 nodes e = nodes := by
  unfold removeFix2
  rw [h]

theorem removeFix2_some {nodes : Nat → Node} {e n : Nat} (h : (nodes e).next = some n) :
    removeFix2 nodes e = updNodes nodes n ⟨(nodes e).prev, (nodes n).next⟩ := by
  unfold removeFix2
  rw [h]

theorem remove_represents {s : ListState} {l : List Nat} {e : Nat}
    (h : represents s l) (he : e ∈ l) :
    represents (remove_timed_event s e) (l.erase e) := by
  obtain ⟨hnd, hseg⟩ := h
  obtain ⟨u, v, rfl⟩ := List.append_of_mem he
  have hmid : (e :: (u ++ v)).Nodup := List.nodup_middle.mp hnd
  have henotuv : e ∉ u ++ v := (List.nodup_cons.mp hmid).1
  have henotu : e ∉ u := fun hx => henotuv (List.mem_append.mpr (Or.inl hx))
  have henotv : e ∉ v := fun hx => henotuv (List.mem_append.mpr (Or.inr hx))
  have huvnd : (u ++ v).Nodup := (List.nodup_cons.mp hmid).2
  have hund : u.Nodup := (List.nodup_append.mp huvnd).1
  have hvnd : v.Nodup := (List.nodup_append.mp huvnd).2.1
  have hdisj : List.Disjoint u v := (List.nodup_append.mp huvnd).2.2
  have herase : (u ++ e :: v).erase e = u ++ v := by
    rw [List.erase_append_right _ henotu, List.erase_cons_head]
  rw [herase]
  rcases (dlseg_append u (e :: v) none s.first s.last none).mp hseg with ⟨k, j, hu, hv⟩
  obtain ⟨hje, hke, hv3⟩ := hv
  refine ⟨huvnd, ?_⟩
  rw [remove_timed_event_first, remove_timed_event_last, remove_timed_event_nodes]
  cases u with
  | nil =>
    obtain ⟨hfj, hkn⟩ := hu
    have hfe : s.first = some e := by rw [hfj, hje]
    have hprevE : (s.nodes e).prev = none := by rw [hke, hkn]
    rw [removeFix1_none hprevE]
    cases v with
    | nil =>
      obtain ⟨hnn, hls⟩ := hv3
      rw [removeFix2_none hnn, if_pos hfe, if_pos hls, hprevE, hnn]
      exact ⟨rfl, rfl⟩
    | cons n v' =>
      have hlv : s.last = some ((n :: v').getLast (List.cons_ne_nil n v')) :=
        dlseg_last hv3 (List.cons_ne_nil n v')
      obtain ⟨hnxt, hprevN, hv4⟩ := hv3
      have hlne : ¬ s.last = some e := by
        rw [hlv]
        intro hc
        apply henotv
        have hgl : (n :: v').getLast (List.cons_ne_nil n v') = e := by simpa using hc
        rw [← hgl]
        exact List.getLast_mem _
      rw [removeFix2_some hnxt, if_pos hfe, if_neg hlne, hnxt, hprevE]
      refine ⟨rfl, ?_, ?_⟩
      · rw [updNodes_same]
      · rw [updNodes_same]
        show dlseg _ (some n) (s.nodes n).next s.last none v'
        apply dlseg_congr hv4
        intro x hx
        have hxn : x ≠ n := fun hc => (List.nodup_cons.mp hvnd).1 (hc ▸ hx)
        exact updNodes_other _ _ _ hxn
  | cons a u' =>
    have hune : (a :: u') ≠ [] := List.cons_ne_nil a u'
    have hkp : k = some ((a :: u').getLast hune) := dlseg_last hu hune
    set p := (a :: u').getLast hune with hp
    have hpu : p ∈ a :: u' := List.getLast_mem hune
    have hep : e ≠ p := fun hc => henotu (hc ▸ hpu)
    have hfa : s.first = some a := by simpa using dlseg_head hu
    have hfne : ¬ s.first = some e := by
      rw [hfa]
      intro hc
      apply henotu
      have hae : a = e := by simpa using hc
      rw [← hae]
      exact List.mem_cons_self a u'
    have hprevE : (s.nodes e).prev = some p := by rw [hke, hkp]
    rw [removeFix1_some hprevE]
    have hn1e : (updNodes s.nodes p ⟨(s.nodes p).prev, (s.nodes e).next⟩) e = s.nodes e :=
      updNodes_other _ _ _ hep
    rw [hkp, hje] at hu
    cases v with
    | nil =>
      obtain ⟨hnn, hls⟩ := hv3
      have h2 : ((updNodes s.nodes p ⟨(s.nodes p).prev, (s.nodes e).next⟩) e).next = none := by
        rw [hn1e, hnn]
      rw [removeFix2_none h2, if_neg hfne, if_pos hls, hprevE, hnn, List.append_nil]
      exact dlseg_retarget hu hund hune none
    | cons n v' =>
      have hlv : s.last = some ((n :: v').getLast (List.cons_ne_nil n v')) :=
        dlseg_last hv3 (List.cons_ne_nil n v')
      obtain ⟨hnxt, hprevN, hv4⟩ := hv3
      have hlne : ¬ s.last = some e := by
        rw [hlv]
        intro hc
        apply henotv
        have hgl : (n :: v').getLast (List.cons_ne_nil n v') = e := by simpa using hc
        rw [← hgl]
        exact List.getLast_mem _
      have hnv : n ∈ n :: v' := List.mem_cons_self n v'
      have hne : n ≠ e := fun hc => henotv (hc ▸ hnv)
      have hnp : n ≠ p := fun hc => hdisj (hc ▸ hpu) hnv
      have h2 : ((updNodes s.nodes p ⟨(s.nodes p).prev, (s.nodes e).next⟩) e).next = some n := by
        rw [hn1e, hnxt]
      rw [removeFix2_some h2, if_neg hfne, if_neg hlne, hn1e, hprevE, hnxt]
      have hn1n : (updNodes s.nodes p ⟨(s.nodes p).prev, some n⟩) n = s.nodes n :=
        updNodes_other _ _ _ hnp
      rw [hn1n]
      apply (dlseg_append (a :: u') (n :: v') none s.first s.last none).mpr
      refine ⟨some p, some n, ?_, rfl, ?_, ?_⟩
      · have hseg1 := dlseg_retarget hu hund hune (some n)
        apply dlseg_congr hseg1
        intro x hx
        have hxn : x ≠ n := fun hc => hdisj hx (hc ▸ hnv)
        exact updNodes_other _ _ _ hxn
      · rw [updNodes_same]
      · rw [updNodes_same]
        show dlseg _ (some n) (s.nodes n).next s.last none v'
        apply dlseg_congr hv4
        intro x hx
        have hxn : x ≠ n := fun hc => (List.nodup_cons.mp hvnd).1 (hc ▸ hx)
        have hxp : x ≠ p := fun hc => hdisj (hc ▸ hpu) (List.mem_cons_of_mem n hx)
        rw [updNodes_other _ _ _ hxn, updNodes_other _ _ _ hxp]

theorem represents_empty : represents emptyListState [] := ⟨List.nodup_nil, rfl, rfl⟩

theorem runOps_represents :
    ∀ (ops : List RegOp) (s : ListState) (l : List Nat),
      represents s l → legalB ops l = true →
      represents (runOps ops s) (applyOps ops l) := by
  intro ops
  induction ops with
  | nil => intro s l h _; exact h
  | cons op ops ih =>
    intro s l h hleg
    cases op with
    | add e =>
      simp only [legalB, Bool.and_eq_true, Bool.not_eq_true', decide_eq_false_iff_not] at hleg
      exact ih _ _ (add_represents h hleg.1) hleg.2
    | remove e =>
      simp only [legalB, Bool.and_eq_true, decide_eq_true_eq] at hleg
      exact ih _ _ (remove_represents h hleg.1) hleg.2

theorem applyOps_length :
    ∀ (ops : List RegOp) (l : List Nat), legalB ops l = true →
      (applyOps ops l).length + countRemoves ops = l.length + countAdds ops := by
  intro ops
  induction ops with
  | nil => intro l _; simp [applyOps, countAdds, countRemoves]
  | cons op ops ih =>
    intro l hleg
    cases op with
    | add e =>
      simp only [legalB, Bool.and_eq_true, Bool.not_eq_true', decide_eq_false_iff_not] at hleg
      have := ih (l ++ [e]) hleg.2
      simp only [applyOps, List.foldl_cons, applyOp, countAdds, countRemoves] at this ⊢
      simp only [List.length_append, List.length_singleton] at this
      omega
    | remove e =>
      simp only [legalB, Bool.and_eq_true, decide_eq_true_eq] at hleg
      have := ih (l.erase e) hleg.2
      have hlen : (l.erase e).length = l.length - 1 := List.length_erase_of_mem hleg.1
      have hpos : 1 ≤ l.length := List.length_pos.mpr (List.ne_nil_of_mem hleg.1)
      simp only [applyOps, List.foldl_cons, applyOp, countAdds, countRemoves] at this ⊢
      omega

theorem applyOps_sublist :
    ∀ (ops : List RegOp) (l : List Nat),
      List.Sublist (applyOps ops l) (l ++ addsList ops) := by
  intro ops
  induction ops with
  | nil => intro l; simp [applyOps, addsList]
  | cons op ops ih =>
    intro l
    cases op with
    | add e =>
      have h1 := ih (l ++ [e])
      have heq : (l ++ [e]) ++ addsList ops = l ++ addsList (RegOp.add e :: ops) := by
        rw [List.append_assoc, List.singleton_append]
        rfl
      rw [← heq]
      exact h1
    | remove e =>
      have h1 := ih (l.erase e)
      have h2 : List.Sublist (l.erase e ++ addsList ops) (l ++ addsList ops) :=
        List.Sublist.append (List.erase_sublist e l) (List.Sublist.refl _)
      simp only [applyOps, List.foldl_cons, applyOp, addsList]
      exact h1.trans h2

/-- C8 amended: the claim holds once adds are also restricted to events not
currently registered (the counterexample shows the claim fails for the
unrestricted add it permits).  For every finite add/remove sequence legal from
the empty registry — each add of an unregistered event, each remove of a
registered one — the concrete pointer structure realizes the abstract list:
the head and tail pointers are the first and last surviving element (so
removal repairs them in every position), traversal from the head visits
exactly the surviving elements in insertion order, the size equals adds minus
removes, and the surviving list is an order-preserving subsequence of the
added keys (so a removed event can be re-added and appears at its new
position). -/
theorem registry_sequence_correct (ops : List RegOp) (h : legalB ops [] = true) :
    (runOps ops emptyListState).first = (applyOps ops []).head? ∧
    (runOps ops emptyListState).last = (applyOps ops []).getLast? ∧
    traverseFrom (runOps ops emptyListState).nodes (runOps ops emptyListState).first
      (applyOps ops []).length = applyOps ops [] ∧
    (applyOps ops []).length + countRemoves ops = countAdds ops ∧
    List.Sublist (applyOps ops []) (addsList ops) := by
  have hrep := runOps_represents ops emptyListState [] represents_empty h
  have hlen := applyOps_length ops [] h
  have hsub := applyOps_sublist ops []
  refine ⟨represents_first hrep, represents_last hrep, ?_, by simpa using hlen,
    by simpa using hsub⟩
  exact traverseFrom_of_dlseg hrep.2

/-- C8 counterexample: the sequence `[add 1, add 1]` contains no remove, so it
satisfies the claim's only side condition ("removing only currently-registered
events"), yet re-adding the tail element self-links node 1: traversal revisits
the same element (`[1, 1]` with fuel 2, never reaching the end), instead of
visiting the single surviving element `[1]` once. -/
theorem double_add_breaks_registry :
    ((runOps [RegOp.add 1, RegOp.add 1] emptyListState).nodes 1).next = some 1 ∧
    traverseFrom (runOps [RegOp.add 1, RegOp.add 1] emptyListState).nodes
      (runOps [RegOp.add 1, RegOp.add 1] emptyListState).first 2 = [1, 1] ∧
    [1, 1] ≠ [1] := by
  exact ⟨by decide, by decide, by decide⟩

/-- C8 witness: adds of 1, 2, 3, an interior removal (2), a tail removal (3)
and a re-add of 2: the registry realizes `[1, 2]` with correct head, tail,
traversal, size 4 - 2 = 2, and insertion-order subsequence of the adds. -/
theorem registry_sequence_witness :
    legalB [RegOp.add 1, RegOp.add 2, RegOp.add 3, RegOp.remove 2, RegOp.remove 3,
      RegOp.add 2] [] = true ∧
    ((runOps [RegOp.add 1, RegOp.add 2, RegOp.add 3, RegOp.remove 2, RegOp.remove 3,
        RegOp.add 2] emptyListState).first =
      (applyOps [RegOp.add 1, RegOp.add 2, RegOp.add 3, RegOp.remove 2, RegOp.remove 3,
        RegOp.add 2] []).head? ∧
     (runOps [RegOp.add 1, RegOp.add 2, RegOp.add 3, RegOp.remove 2, RegOp.remove 3,
        RegOp.add 2] emptyListState).last =
      (applyOps [RegOp.add 1, RegOp.add 2, RegOp.add 3, RegOp.remove 2, RegOp.remove 3,
        RegOp.add 2] []).getLast? ∧
     traverseFrom (runOps [RegOp.add 1, RegOp.add 2, RegOp.add 3, RegOp.remove 2,
        RegOp.remove 3, RegOp.add 2] emptyListState).nodes
        (runOps [RegOp.add 1, RegOp.add 2, RegOp.add 3, RegOp.remove 2, RegOp.remove 3,
          RegOp.add 2] emptyListState).first
        (applyOps [RegOp.add 1, RegOp.add 2, RegOp.add 3, RegOp.remove 2, RegOp.remove 3,
          RegOp.add 2] []).length =
      applyOps [RegOp.add 1, RegOp.add 2, RegOp.add 3, RegOp.remove 2, RegOp.remove 3,
        RegOp.add 2] [] ∧
     (applyOps [RegOp.add 1, RegOp.add 2, RegOp.add 3, RegOp.remove 2, RegOp.remove 3,
        RegOp.add 2] []).length +
        countRemoves [RegOp.add 1, RegOp.add 2, RegOp.add 3, RegOp.remove 2, RegOp.remove 3,
          RegOp.add 2] =
      countAdds [RegOp.add 1, RegOp.add 2, RegOp.add 3, RegOp.remove 2, RegOp.remove 3,
        RegOp.add 2] ∧
     List.Sublist
       (applyOps [RegOp.add 1, RegOp.add 2, RegOp.add 3, RegOp.remove 2, RegOp.remove 3,
         RegOp.add 2] [])
       (addsList [RegOp.add 1, RegOp.add 2, RegOp.add 3, RegOp.remove 2, RegOp.remove 3,
         RegOp.add 2])) :=
  ⟨by decide,
   registry_sequence_correct
     [RegOp.add 1, RegOp.add 2, RegOp.add 3, RegOp.remove 2, RegOp.remove 3, RegOp.add 2]
     (by decide)⟩

/-- C9 counterexample: `add_timed_event` performs no registered-anywhere
check; re-adding the sole registered event 1 changes the registry (node 1
was `⟨none, none⟩` and becomes self-linked `⟨some 1, some 1⟩`), refuting both
the detected failure and the registry being left unchanged. -/
theorem double_add_changes_registry :
    (add_timed_event (add_timed_event emptyListState 1) 1).nodes 1 ≠
      (add_timed_event emptyListState 1).nodes 1 ∧
    (add_timed_event (add_timed_event emptyListState 1) 1).nodes 1 = ⟨some 1, some 1⟩ := by
  exact ⟨by decide, by decide⟩

/-- C9 amended: neither `add_timed_event` nor `add_fd_event` checks for prior
registration; there is no failure path.  Adding an event that is already the
registry tail mutates the registry, leaving the event self-linked
(`prev = next = ` the event itself) so the list structure is corrupted rather
than left unchanged; single registration is an unchecked caller obligation. -/
theorem add_registered_corrupts (s : ListState) (e : Nat) (h : s.last = some e) :
    (add_timed_event s e).nodes e = ⟨some e, some e⟩ ∧
    (add_fd_event s e).nodes e = ⟨some e, some e⟩ := by
  constructor
  · rw [add_timed_event_eq_some h]
    simp [updNodes]
  · show (add_timed_event s e).nodes e = ⟨some e, some e⟩
    rw [add_timed_event_eq_some h]
    simp [updNodes]

/-- C9 witness: re-adding the tail of the singleton registry `[1]` leaves
node 1 self-linked, for both registry kinds. -/
theorem add_registered_corrupts_witness :
    (add_timed_event (add_timed_event emptyListState 1) 1).nodes 1 =
      ⟨some 1, some 1⟩ ∧
    (add_fd_event (add_timed_event emptyListState 1) 1).nodes 1 =
      ⟨some 1, some 1⟩ :=
  add_registered_corrupts (add_timed_event emptyListState 1) 1 (by decide)

end Rasta
